import Mathlib

/-!
# Verification of the call-center dashboard pipeline

Shallow embedding of `streamlit_dashboard.py` (the data-transformation
pipeline of the call-center dashboard) and proofs of the specified
properties.

Modelling conventions:
* A dataframe row is a `Record`; a record set is a `List Record` in
  dataframe row order.
* `Timestamp` values are integers: seconds since the epoch
  1970-01-01 00:00 (a Thursday).  `pd.Timestamp` arithmetic
  (`.diff().dt.total_seconds() / 60`, `.dt.date`, `.dt.day_name()`) is
  modelled with exact integer/rational arithmetic; float rounding is
  irrelevant at realistic magnitudes because all the involved values
  (counts scaled by 0.75 = 3/4, second differences divided by 60) are
  exactly representable.
* `df.sort_values(["Agent Name", "Timestamp"])` sorts on several keys,
  for which pandas uses `np.lexsort`, a stable sort; it is modelled by a
  stable insertion sort on the lexicographic order.
* `lb.sort_values("Calls", ascending=False)` (single key, default
  `kind="quicksort"`) goes through pandas `nargsort`, which reverses the
  array, argsorts ascending, and reverses the resulting indexer, so that
  it is order-preserving on ties whenever the underlying numpy argsort
  is.  numpy's introsort is its (stable) insertion-sort leaf on arrays
  of at most 16 elements and an unstable partitioning sort beyond that,
  so the program guarantees tie order only for leaderboards of at most
  16 rows.  The model uses a stable descending sort; it therefore agrees
  with the program up to the order of tied rows, and exactly (tie order
  included) in the ≤ 16-row regime.  Accordingly, the only theorem that
  speaks about tie order (`leaderboard_spec`, last conjunct) carries a
  `≤ 16` length hypothesis; every other statement about the leaderboard
  (membership, rank denseness, per-row fields, descending call counts,
  the underperformer set) is invariant under permuting tied rows and so
  does not depend on this modelling choice.
* `groupby` with default `sort=True` lists group keys in ascending
  order; `groupby(...).diff()` subtracts, within each group, the
  previous member of the same group in dataframe row order.
* NaN propagation (`mean` of an all-NaN group, `max` of an empty series)
  is modelled with `Option`: `none` plays the role of NaN.
-/

/-- One row of the cleaned dataset after column normalisation:
`Agent Name`, `Timestamp` (seconds since the epoch), `Reason for
Calling`, `New patient?`. -/
structure Record where
  agentName : String
  timestamp : Int
  reason : String
  newPatient : String
deriving Repr, DecidableEq

/-- `df["Timestamp"].dt.date`, as the number of whole days since the
epoch (floor division, matching calendar dates for nonnegative
timestamps and pandas' proleptic calendar for negative ones). -/
def callDate (r : Record) : Int :=
  r.timestamp.fdiv 86400

/-- The names produced by `Series.dt.day_name()`, indexed by
`Timestamp.weekday()` (Monday = 0). -/
def dayNames : List String :=
  ["Monday", "Tuesday", "Wednesday", "Thursday", "Friday", "Saturday", "Sunday"]

/-- `df["Timestamp"].dt.day_name()`: the epoch day 1970-01-01 is a
Thursday (weekday index 3). -/
def dayName (r : Record) : String :=
  dayNames.getD ((callDate r + 3).emod 7).toNat ""

/-- Lexicographic comparison of character lists by code point: the
order Python (and hence pandas) uses on strings. -/
def lexLtB : List Char → List Char → Bool
  | [], [] => false
  | [], _ :: _ => true
  | _ :: _, [] => false
  | a :: as, b :: bs => if a < b then true else if b < a then false else lexLtB as bs

/-- Python's `<` on strings: lexicographic by Unicode code point. -/
def strLt (a b : String) : Prop :=
  lexLtB a.data b.data = true

instance (a b : String) : Decidable (strLt a b) := by
  unfold strLt; infer_instance

theorem lexLtB_irrefl : ∀ x : List Char, lexLtB x x = false
  | [] => rfl
  | a :: as => by simp [lexLtB, lt_irrefl, lexLtB_irrefl as]

theorem lexLtB_trichotomy : ∀ x y : List Char,
    lexLtB x y = true ∨ x = y ∨ lexLtB y x = true
  | [], [] => Or.inr (Or.inl rfl)
  | [], _ :: _ => Or.inl rfl
  | _ :: _, [] => Or.inr (Or.inr rfl)
  | a :: as, b :: bs => by
      rcases lt_trichotomy a b with h | h | h
      · left; simp [lexLtB, h]
      · subst h
        rcases lexLtB_trichotomy as bs with h' | h' | h'
        · left; simp [lexLtB, lt_irrefl, h']
        · right; left; rw [h']
        · right; right; simp [lexLtB, lt_irrefl, h']
      · right; right; simp [lexLtB, h]

theorem lexLtB_trans : ∀ {x y z : List Char},
    lexLtB x y = true → lexLtB y z = true → lexLtB x z = true
  | [], [], _, hxy, _ => by simp [lexLtB] at hxy
  | [], _ :: _, [], _, hyz => by simp [lexLtB] at hyz
  | [], _ :: _, _ :: _, _, _ => rfl
  | _ :: _, [], _, hxy, _ => by simp [lexLtB] at hxy
  | _ :: _, _ :: _, [], _, hyz => by simp [lexLtB] at hyz
  | a :: as, b :: bs, c :: cs, hxy, hyz => by
      rcases lt_trichotomy a b with hab | hab | hab
      · rcases lt_trichotomy b c with hbc | hbc | hbc
        · simp [lexLtB, hab.trans hbc]
        · subst hbc; simp [lexLtB, hab]
        · rw [lexLtB, if_neg (asymm hbc), if_pos hbc] at hyz
          exact absurd hyz (by simp)
      · subst hab
        rw [lexLtB, if_neg (lt_irrefl a), if_neg (lt_irrefl a)] at hxy
        rcases lt_trichotomy a c with hac | hac | hac
        · simp [lexLtB, hac]
        · subst hac
          rw [lexLtB, if_neg (lt_irrefl a), if_neg (lt_irrefl a)] at hyz ⊢
          exact lexLtB_trans hxy hyz
        · rw [lexLtB, if_neg (asymm hac), if_pos hac] at hyz
          exact absurd hyz (by simp)
      · rw [lexLtB, if_neg (asymm hab), if_pos hab] at hxy
        exact absurd hxy (by simp)

theorem lexLtB_asymm {x y : List Char} (h : lexLtB x y = true) :
    lexLtB y x = false := by
  by_contra hc
  have h2 : lexLtB y x = true := by
    cases hxy : lexLtB y x
    · exact absurd hxy hc
    · rfl
  have := lexLtB_trans h h2
  rw [lexLtB_irrefl] at this
  exact absurd this (by simp)

theorem strLt_connex {a b : String} (h1 : ¬ strLt a b) (h2 : ¬ strLt b a) :
    a = b := by
  rcases lexLtB_trichotomy a.data b.data with h | h | h
  · exact absurd h h1
  · cases a; cases b; exact congrArg String.mk h
  · exact absurd h h2

/-- The lexicographic row order used by
`df.sort_values(["Agent Name", "Timestamp"])`. -/
def rowLe (r s : Record) : Prop :=
  strLt r.agentName s.agentName ∨
    (r.agentName = s.agentName ∧ r.timestamp ≤ s.timestamp)

instance : DecidableRel rowLe := fun r s => by
  unfold rowLe; infer_instance

instance : IsTotal Record rowLe where
  total r s := by
    unfold rowLe
    by_cases h1 : strLt r.agentName s.agentName
    · exact Or.inl (Or.inl h1)
    · by_cases h2 : strLt s.agentName r.agentName
      · exact Or.inr (Or.inl h2)
      · have he := strLt_connex h1 h2
        rcases le_total r.timestamp s.timestamp with h' | h'
        · exact Or.inl (Or.inr ⟨he, h'⟩)
        · exact Or.inr (Or.inr ⟨he.symm, h'⟩)

instance : IsTrans Record rowLe where
  trans r s t := by
    unfold rowLe
    rintro (h | ⟨he, ht⟩) (h' | ⟨he', ht'⟩)
    · exact Or.inl (lexLtB_trans h h')
    · exact Or.inl (he' ▸ h)
    · exact Or.inl (he ▸ h')
    · exact Or.inr ⟨he.trans he', ht.trans ht'⟩

/-- `df = df.sort_values(["Agent Name", "Timestamp"])`: pandas uses the
stable `np.lexsort` for multi-key sorts. -/
def sortValuesAgentTs (rs : List Record) : List Record :=
  List.insertionSort rowLe rs

/-- A record together with its derived `Idle Time (min)` column
(`none` is pandas NaN). -/
structure ERec where
  row : Record
  idle : Option ℚ
deriving Repr, DecidableEq

/-- Worker for `groupby("Agent Name")["Timestamp"].diff()`: `seen` is
the reversed list of rows already passed, so `seen.find?` returns the
previous row of the same group in dataframe order. -/
def diffIdleGo (seen : List Record) : List Record → List ERec
  | [] => []
  | r :: rest =>
      ⟨r, (seen.find? (fun p => p.agentName == r.agentName)).map
            (fun p => ((r.timestamp : ℚ) - (p.timestamp : ℚ)) / 60)⟩ ::
        diffIdleGo (r :: seen) rest

/-- `df.groupby("Agent Name")["Timestamp"].diff().dt.total_seconds() / 60`,
attached to each row. -/
def diffIdle (l : List Record) : List ERec :=
  diffIdleGo [] l

/-- The feature-engineering block (lines 36–44): sort by
(`Agent Name`, `Timestamp`), then attach the per-agent idle time. -/
def deriveFeatures (rs : List Record) : List ERec :=
  diffIdle (sortValuesAgentTs rs)

/-- Reference shape of one agent's idle column: given the previous
timestamp of the same agent (if any), each row's idle time is the
difference, in minutes, to the timestamp before it. -/
def idleSeq (prev : Option Int) : List Record → List ERec
  | [] => []
  | r :: rest =>
      ⟨r, prev.map (fun p : Int => ((r.timestamp : ℚ) - (p : ℚ)) / 60)⟩ ::
        idleSeq (some r.timestamp) rest

theorem diffIdleGo_filter (a : String) :
    ∀ (l : List Record) (seen : List Record),
      (diffIdleGo seen l).filter (fun e => e.row.agentName == a) =
        idleSeq ((seen.find? (fun p => p.agentName == a)).map (·.timestamp))
          (l.filter (fun r => r.agentName == a))
  | [], _ => rfl
  | r :: rest, seen => by
      by_cases h : r.agentName = a
      · subst h
        rw [diffIdleGo, List.filter_cons, List.filter_cons]
        simp only [beq_self_eq_true, if_pos, idleSeq]
        rw [diffIdleGo_filter r.agentName rest (r :: seen)]
        simp only [List.find?_cons, beq_self_eq_true, cond_true, Option.map_map,
          Option.map_some]
        rfl
      · have hb : (r.agentName == a) = false := beq_eq_false_iff_ne.mpr h
        rw [diffIdleGo, List.filter_cons, List.filter_cons]
        simp only [hb, Bool.false_eq_true, if_false]
        rw [diffIdleGo_filter a rest (r :: seen)]
        simp only [List.find?_cons, hb, cond_false]

theorem diffIdleGo_map_row :
    ∀ (l : List Record) (seen : List Record), (diffIdleGo seen l).map (·.row) = l
  | [], _ => rfl
  | r :: rest, seen => by
      simp only [diffIdleGo, List.map_cons, diffIdleGo_map_row rest (r :: seen)]

theorem idleSeq_map_row : ∀ (prev : Option Int) (l : List Record),
    (idleSeq prev l).map (·.row) = l
  | _, [] => rfl
  | prev, r :: rest => by
      simp only [idleSeq, List.map_cons, idleSeq_map_row (some r.timestamp) rest]

theorem idleSeq_length (prev : Option Int) (l : List Record) :
    (idleSeq prev l).length = l.length := by
  have := congrArg List.length (idleSeq_map_row prev l)
  simpa using this

theorem idleSeq_head_idle (l : List Record) (h : 0 < (idleSeq none l).length) :
    ((idleSeq none l).get ⟨0, h⟩).idle = none := by
  cases l with
  | nil => simp [idleSeq] at h
  | cons r rest => rfl

theorem idleSeq_get_idle : ∀ (prev : Option Int) (l : List Record) (i : Nat)
    (h : i + 1 < (idleSeq prev l).length),
    ((idleSeq prev l).get ⟨i + 1, h⟩).idle =
      some ((((idleSeq prev l).get ⟨i + 1, h⟩).row.timestamp -
             (((idleSeq prev l).get ⟨i, Nat.lt_of_succ_lt h⟩).row.timestamp) : ℚ) / 60)
  | prev, [], i, h => by simp [idleSeq] at h
  | prev, r :: rest, 0, h => by
      cases rest with
      | nil => simp [idleSeq] at h
      | cons s tail => rfl
  | prev, r :: rest, i + 1, h => by
      have h' : i + 1 < (idleSeq (some r.timestamp) rest).length := by
        simpa [idleSeq] using Nat.lt_of_succ_lt_succ h
      simpa [idleSeq, List.get] using idleSeq_get_idle (some r.timestamp) rest i h'

theorem deriveFeatures_filter (rs : List Record) (a : String) :
    (deriveFeatures rs).filter (fun e => e.row.agentName == a) =
      idleSeq none ((sortValuesAgentTs rs).filter (fun r => r.agentName == a)) := by
  have h := diffIdleGo_filter a (sortValuesAgentTs rs) []
  simpa [deriveFeatures, diffIdle] using h

theorem sorted_filter_agent (rs : List Record) (a : String) :
    ((sortValuesAgentTs rs).filter (fun r => r.agentName == a)).Pairwise
      (fun x y => x.timestamp ≤ y.timestamp) := by
  have hs : (sortValuesAgentTs rs).Pairwise rowLe :=
    List.sorted_insertionSort rowLe rs
  have hf : ((sortValuesAgentTs rs).filter (fun r => r.agentName == a)).Pairwise rowLe :=
    hs.filter _
  refine hf.imp_of_mem ?_
  intro x y hx hy hxy
  have hax : x.agentName = a := by
    have := (List.mem_filter.mp hx).2
    exact beq_iff_eq.mp this
  have hay : y.agentName = a := by
    have := (List.mem_filter.mp hy).2
    exact beq_iff_eq.mp this
  rcases hxy with h | ⟨_, h⟩
  · rw [hax, hay] at h
    rw [strLt, lexLtB_irrefl] at h
    exact absurd h (by simp)
  · exact h

theorem head_idle_of_eq {l : List ERec} {m : List Record}
    (he : l = idleSeq none m) (h0 : 0 < l.length) :
    (l.get ⟨0, h0⟩).idle = none := by
  subst he
  exact idleSeq_head_idle m h0

theorem get_idle_of_eq {l : List ERec} {prev : Option Int} {m : List Record}
    (he : l = idleSeq prev m) (i : Nat) (h : i + 1 < l.length) :
    (l.get ⟨i + 1, h⟩).idle =
      some ((((l.get ⟨i + 1, h⟩).row.timestamp : ℚ) -
             ((l.get ⟨i, Nat.lt_of_succ_lt h⟩).row.timestamp : ℚ)) / 60) := by
  subst he
  exact idleSeq_get_idle prev m i h

/-- C3: Idle time is computed within each agent's own timestamp-ordered
sequence.  For every record set `rs` and agent name `a`, let `own` be
the rows of the derived record set belonging to `a` (in derived order).
Then: `own` consists exactly of `a`'s records sorted by timestamp, its
chronologically first row has no idle-time value (`none`, never zero),
and every later row's idle time is its timestamp minus the previous
row's timestamp of the same agent, in minutes — so the idle time never
uses another agent's records. -/
theorem idle_time_per_agent (rs : List Record) (a : String) :
    letI own := (deriveFeatures rs).filter (fun e => e.row.agentName == a)
    own.Pairwise (fun x y => x.row.timestamp ≤ y.row.timestamp) ∧
    (∀ e ∈ own, e.row.agentName = a) ∧
    own.map (·.row) = (sortValuesAgentTs rs).filter (fun r => r.agentName == a) ∧
    (∀ h0 : 0 < own.length, (own.get ⟨0, h0⟩).idle = none) ∧
    (∀ (i : Nat) (h : i + 1 < own.length),
      (own.get ⟨i + 1, h⟩).idle =
        some ((((own.get ⟨i + 1, h⟩).row.timestamp : ℚ) -
               ((own.get ⟨i, Nat.lt_of_succ_lt h⟩).row.timestamp : ℚ)) / 60)) := by
  have he := deriveFeatures_filter rs a
  refine ⟨?_, ?_, ?_, ?_, ?_⟩
  · rw [he]
    have hp := sorted_filter_agent rs a
    have hmap := idleSeq_map_row none ((sortValuesAgentTs rs).filter (fun r => r.agentName == a))
    rw [← hmap] at hp
    exact (List.pairwise_map (f := fun e : ERec => e.row)
      (R := fun x y : Record => x.timestamp ≤ y.timestamp)).mp hp
  · intro e hee
    exact beq_iff_eq.mp (List.mem_filter.mp hee).2
  · rw [he]
    exact idleSeq_map_row none _
  · intro h0
    exact head_idle_of_eq he h0
  · intro i h
    exact get_idle_of_eq he i h

/-- The spec's worked example: agent `A` calls at 09:00 and 09:10,
agent `B` calls at 09:05 (timestamps in seconds since midnight). -/
def exampleIdleRecords : List Record :=
  [⟨"A", 32400, "X", "No"⟩, ⟨"A", 33000, "X", "No"⟩, ⟨"B", 32700, "X", "No"⟩]

/-- Witness for C3 at the spec's own example: `A`'s second record gets
idle time 10 minutes and `B`'s single record has no idle value. -/
theorem idle_time_per_agent_witness :
    (((deriveFeatures exampleIdleRecords).filter
        (fun e => e.row.agentName == "A")).get ⟨1, by decide⟩).idle = some 10 ∧
    (((deriveFeatures exampleIdleRecords).filter
        (fun e => e.row.agentName == "B")).get ⟨0, by decide⟩).idle = none := by
  constructor
  · have h1 := (idle_time_per_agent exampleIdleRecords "A").2.2.2.2 0 (by decide)
    refine h1.trans ?_
    have e1 : ((((deriveFeatures exampleIdleRecords).filter
        (fun e => e.row.agentName == "A")).get ⟨1, by decide⟩).row.timestamp) = 33000 := by decide
    have e0 : ((((deriveFeatures exampleIdleRecords).filter
        (fun e => e.row.agentName == "A")).get ⟨0, by decide⟩).row.timestamp) = 32400 := by decide
    rw [e1, e0]
    norm_num
  · exact (idle_time_per_agent exampleIdleRecords "B").2.2.2.1 (by decide)

/-- The distinct agent names appearing in the record set (the index of
`df["Agent Name"].value_counts()` and of `df.groupby("Agent Name")`,
as a set; membership is all that matters below). -/
def agentsOf (rs : List Record) : List String :=
  (rs.map (·.agentName)).dedup

/-- Total call count of one agent (`value_counts` entry / `Total_Calls`
/ `Calls`, all of which count rows of that agent). -/
def countAgent (a : String) (rs : List Record) : Nat :=
  rs.countP (fun r => r.agentName == a)

/-- `(x == "Yes").sum()` within one agent's group: the number of that
agent's records with `New patient?` equal to `"Yes"`. -/
def countYes (a : String) (rs : List Record) : Nat :=
  rs.countP (fun r => r.agentName == a && r.newPatient == "Yes")

/-- Lines 47–51: `df["Agent Name"].value_counts().drop("Kim Villafuerte",
errors="ignore")` — the per-agent call counts with the outlier agent
removed from the baseline. -/
def callCountsExclKim (rs : List Record) : List Nat :=
  ((agentsOf rs).filter (fun a => a != "Kim Villafuerte")).map
    (fun a => countAgent a rs)

/-- Line 52: `threshold_75 = 0.75 * call_counts_excl_kim.max()`.
`max()` of an empty series is NaN, modelled as `none`. -/
def threshold75 (rs : List Record) : Option ℚ :=
  (callCountsExclKim rs).max?.map (fun m => (3 / 4 : ℚ) * (m : ℚ))

/-- Line 180: `lb["Calls"] >= threshold_75`.  A float comparison with
NaN is `False` in pandas, hence the `none` case. -/
def meetsThreshold (thr : Option ℚ) (c : Nat) : Bool :=
  match thr with
  | none => false
  | some t => decide ((c : ℚ) ≥ t)

/-- Python `<=` on strings (used through sorting of `groupby` keys). -/
def strLe (a b : String) : Prop :=
  lexLtB b.data a.data = false

instance (a b : String) : Decidable (strLe a b) := by
  unfold strLe; infer_instance

instance : IsTotal String strLe where
  total a b := by
    unfold strLe
    cases h : lexLtB b.data a.data
    · exact Or.inl rfl
    · exact Or.inr (lexLtB_asymm h)

instance : IsTrans String strLe where
  trans a b c hab hbc := by
    unfold strLe at *
    cases hca : lexLtB c.data a.data
    · rfl
    · exfalso
      rcases lexLtB_trichotomy b.data c.data with h | h | h
      · have := lexLtB_trans h hca
        rw [hab] at this
        exact absurd this (by simp)
      · rw [← h] at hca
        rw [hab] at hca
        exact absurd hca (by simp)
      · rw [h] at hbc
        exact absurd hbc (by simp)

/-- Group keys of `df.groupby("Agent Name")`: the distinct agent names
in ascending order (pandas `groupby` sorts keys by default). -/
def agentsSorted (rs : List Record) : List String :=
  List.insertionSort strLe (agentsOf rs)

/-- A row of `lb` after the `groupby(...).agg(...)` of lines 175–178. -/
structure LBRow where
  agentName : String
  calls : Nat
  newBooks : Nat
deriving Repr, DecidableEq

/-- Lines 175–178: the leaderboard base table, one row per agent in
ascending agent-name order. -/
def lbBase (rs : List Record) : List LBRow :=
  (agentsSorted rs).map (fun a => ⟨a, countAgent a rs, countYes a rs⟩)

/-- A leaderboard row after the `Meets 75%` column is added (line
180). -/
structure LBPre where
  agentName : String
  calls : Nat
  newBooks : Nat
  meets : Bool
deriving Repr, DecidableEq

/-- A leaderboard row after the `Rank` column is inserted (line 182). -/
structure LBEntry where
  rank : Nat
  agentName : String
  calls : Nat
  newBooks : Nat
  meets : Bool
deriving Repr, DecidableEq

/-- The descending-calls comparison of
`lb.sort_values("Calls", ascending=False)`. -/
def callsGe (x y : LBPre) : Prop :=
  y.calls ≤ x.calls

instance : DecidableRel callsGe := fun x y => by
  unfold callsGe; infer_instance

instance : IsTotal LBPre callsGe where
  total x y := le_total y.calls x.calls

instance : IsTrans LBPre callsGe where
  trans x y z hxy hyz := le_trans hyz hxy

/-- Lines 175–182: the leaderboard.  Excludes the team lead, adds the
`Meets 75%` flag, sorts by calls descending, and inserts the 1-based
positional `Rank` column.  The sort is modelled as stable, which
coincides with the program's `sort_values("Calls", ascending=False)`
exactly on leaderboards of at most 16 rows and up to the order of tied
rows beyond that (see the module docstring on pandas `nargsort` and
numpy's introsort); only `leaderboard_spec`'s explicitly ≤ 16-scoped
conjunct relies on the tie order. -/
def leaderboard (rs : List Record) (thr : Option ℚ) : List LBEntry :=
  let l1 := (lbBase rs).filter (fun r => r.agentName != "Zayra Lopez")
  let l2 := l1.map (fun r => LBPre.mk r.agentName r.calls r.newBooks
    (meetsThreshold thr r.calls))
  let l3 := List.insertionSort callsGe l2
  l3.enum.map (fun p => ⟨p.1 + 1, p.2.agentName, p.2.calls, p.2.newBooks, p.2.meets⟩)

theorem leaderboard_mem_shape (rs : List Record) (thr : Option ℚ) :
    ∀ e ∈ leaderboard rs thr,
      e.agentName ∈ agentsOf rs ∧ e.agentName ≠ "Zayra Lopez" ∧
      e.calls = countAgent e.agentName rs ∧
      e.newBooks = countYes e.agentName rs ∧
      e.meets = meetsThreshold thr e.calls := by
  intro e he
  rw [leaderboard] at he
  simp only [List.mem_map] at he
  obtain ⟨p, hp, rfl⟩ := he
  have hsnd : p.2 ∈ List.insertionSort callsGe
      (((lbBase rs).filter (fun r => r.agentName != "Zayra Lopez")).map
        (fun r => LBPre.mk r.agentName r.calls r.newBooks (meetsThreshold thr r.calls))) := by
    have := List.mem_map_of_mem Prod.snd hp
    rwa [List.enum_map_snd] at this
  rw [List.mem_insertionSort] at hsnd
  simp only [List.mem_map] at hsnd
  obtain ⟨r, hr, heq⟩ := hsnd
  rw [← heq]
  rw [List.mem_filter] at hr
  obtain ⟨hrb, hrz⟩ := hr
  rw [lbBase, List.mem_map] at hrb
  obtain ⟨a, ha, rfl⟩ := hrb
  refine ⟨?_, ?_, rfl, rfl, rfl⟩
  · have := (List.mem_insertionSort strLe).mp ha
    exact this
  · exact bne_iff_ne.mp hrz

/-- C1: the KPI threshold is `0.75` times the maximum per-agent total
call count taken over all agents other than the outlier
`"Kim Villafuerte"`, and each leaderboard entry's `Meets 75%` flag is
true exactly when its call count is `≥` the threshold (non-strict). -/
theorem threshold75_spec (rs : List Record)
    (h : ∃ a ∈ agentsOf rs, a ≠ "Kim Villafuerte") :
    ∃ (t : ℚ) (M : ℕ), threshold75 rs = some t ∧ t = (3 / 4 : ℚ) * (M : ℚ) ∧
      (∃ a ∈ agentsOf rs, a ≠ "Kim Villafuerte" ∧ countAgent a rs = M) ∧
      (∀ a ∈ agentsOf rs, a ≠ "Kim Villafuerte" → countAgent a rs ≤ M) ∧
      (∀ e ∈ leaderboard rs (threshold75 rs),
        (e.meets = true ↔ (e.calls : ℚ) ≥ t)) := by
  obtain ⟨a0, ha0, ha0k⟩ := h
  have hmem : countAgent a0 rs ∈ callCountsExclKim rs := by
    rw [callCountsExclKim]
    exact List.mem_map_of_mem _ (List.mem_filter.mpr ⟨ha0, bne_iff_ne.mpr ha0k⟩)
  obtain ⟨M, hM⟩ : ∃ M, (callCountsExclKim rs).max? = some M := by
    cases hmax : (callCountsExclKim rs).max? with
    | none =>
        rw [List.max?_eq_none_iff] at hmax
        rw [hmax] at hmem
        exact absurd hmem (List.not_mem_nil _)
    | some M => exact ⟨M, rfl⟩
  have hM' := List.max?_eq_some_iff'.mp hM
  refine ⟨(3 / 4 : ℚ) * (M : ℚ), M, ?_, rfl, ?_, ?_, ?_⟩
  · rw [threshold75, hM]; rfl
  · obtain ⟨hMmem, _⟩ := hM'
    rw [callCountsExclKim, List.mem_map] at hMmem
    obtain ⟨a, ha, hcount⟩ := hMmem
    rw [List.mem_filter] at ha
    exact ⟨a, ha.1, bne_iff_ne.mp ha.2, hcount⟩
  · intro a ha hak
    exact hM'.2 _ (by
      rw [callCountsExclKim]
      exact List.mem_map_of_mem _ (List.mem_filter.mpr ⟨ha, bne_iff_ne.mpr hak⟩))
  · intro e he
    have hshape := leaderboard_mem_shape rs (threshold75 rs) e he
    rw [hshape.2.2.2.2]
    have hthr : threshold75 rs = some ((3 / 4 : ℚ) * (M : ℚ)) := by
      rw [threshold75, hM]; rfl
    rw [hthr, meetsThreshold]
    exact decide_eq_true_iff

/-- A small record set for instantiating the KPI theorems: the outlier
agent has 4 calls, agent `"Ann"` has 2, so the threshold is
`0.75 * 2 = 3/2` (not `0.75 * 4 = 3`). -/
def kpiExample : List Record :=
  [⟨"Kim Villafuerte", 0, "X", "No"⟩, ⟨"Kim Villafuerte", 600, "X", "No"⟩,
   ⟨"Kim Villafuerte", 1200, "X", "No"⟩, ⟨"Kim Villafuerte", 1800, "X", "No"⟩,
   ⟨"Ann", 0, "X", "Yes"⟩, ⟨"Ann", 600, "X", "No"⟩]

/-- Witness instantiating `threshold75_spec` on `kpiExample`. -/
theorem threshold75_spec_witness :
    ∃ (t : ℚ) (M : ℕ), threshold75 kpiExample = some t ∧
      t = (3 / 4 : ℚ) * (M : ℚ) ∧
      (∃ a ∈ agentsOf kpiExample, a ≠ "Kim Villafuerte" ∧
        countAgent a kpiExample = M) ∧
      (∀ a ∈ agentsOf kpiExample, a ≠ "Kim Villafuerte" →
        countAgent a kpiExample ≤ M) ∧
      (∀ e ∈ leaderboard kpiExample (threshold75 kpiExample),
        (e.meets = true ↔ (e.calls : ℚ) ≥ t)) :=
  threshold75_spec kpiExample ⟨"Ann", by decide, by decide⟩

/-- The strict order in which a stably-descending-sorted leaderboard
ends up when all input names are strictly increasing: calls strictly
descending, ties in ascending name order. -/
def lbLex (x y : LBPre) : Prop :=
  y.calls < x.calls ∨ (x.calls = y.calls ∧ strLt x.agentName y.agentName)

theorem lbLex_calls_le {x y : LBPre} (h : lbLex x y) : y.calls ≤ x.calls := by
  rcases h with h | ⟨h, _⟩
  · exact le_of_lt h
  · exact le_of_eq h.symm

theorem pairwise_lbLex_orderedInsert (x : LBPre) :
    ∀ l : List LBPre, l.Pairwise lbLex →
      (∀ y ∈ l, strLt x.agentName y.agentName) →
      (List.orderedInsert callsGe x l).Pairwise lbLex
  | [], _, _ => List.pairwise_singleton _ _
  | y :: ys, hp, hx => by
      rw [List.orderedInsert]
      by_cases h : callsGe x y
      · rw [if_pos h]
        have hxy : lbLex x y := by
          rcases lt_or_eq_of_le (h : y.calls ≤ x.calls) with h' | h'
          · exact Or.inl h'
          · exact Or.inr ⟨h'.symm, hx y (List.mem_cons_self y ys)⟩
        refine List.Pairwise.cons ?_ hp
        intro z hz
        rcases List.mem_cons.mp hz with rfl | hz'
        · exact hxy
        · have hyz := (List.pairwise_cons.mp hp).1 z hz'
          have hzy : z.calls ≤ y.calls := lbLex_calls_le hyz
          rcases lt_or_eq_of_le (le_trans hzy (h : y.calls ≤ x.calls)) with h' | h'
          · exact Or.inl h'
          · exact Or.inr ⟨h'.symm, hx z (List.mem_cons_of_mem y hz')⟩
      · rw [if_neg h]
        obtain ⟨hy, hys⟩ := List.pairwise_cons.mp hp
        refine List.Pairwise.cons ?_
          (pairwise_lbLex_orderedInsert x ys hys
            (fun z hz => hx z (List.mem_cons_of_mem y hz)))
        intro z hz
        rcases (List.mem_orderedInsert callsGe).mp hz with rfl | hz'
        · exact Or.inl (lt_of_not_le h)
        · exact hy z hz'

theorem pairwise_lbLex_insertionSort :
    ∀ l : List LBPre,
      l.Pairwise (fun x y => strLt x.agentName y.agentName) →
      (List.insertionSort callsGe l).Pairwise lbLex
  | [], _ => List.Pairwise.nil
  | x :: xs, h => by
      rw [List.insertionSort]
      obtain ⟨hx, hxs⟩ := List.pairwise_cons.mp h
      refine pairwise_lbLex_orderedInsert x _
        (pairwise_lbLex_insertionSort xs hxs) ?_
      intro y hy
      exact hx y ((List.mem_insertionSort callsGe).mp hy)

theorem strLe_and_ne_strLt {a b : String} (h1 : strLe a b) (h2 : a ≠ b) :
    strLt a b := by
  rcases lexLtB_trichotomy a.data b.data with h | h | h
  · exact h
  · exfalso
    apply h2
    cases a; cases b; exact congrArg String.mk h
  · exact absurd h (by rw [strLe] at h1; rw [h1]; simp)

theorem agentsSorted_pairwise_strLt (rs : List Record) :
    (agentsSorted rs).Pairwise strLt := by
  have hle : (agentsSorted rs).Pairwise strLe :=
    List.sorted_insertionSort strLe (agentsOf rs)
  have hnd : (agentsSorted rs).Nodup := by
    have : (agentsOf rs).Nodup := List.nodup_dedup _
    exact ((List.perm_insertionSort strLe (agentsOf rs)).nodup_iff).mpr this
  have := hle.and hnd
  exact this.imp (fun h => strLe_and_ne_strLt h.1 h.2)

/-- The pre-rank leaderboard list (lines 179–180 applied to the base
table). -/
def lbPre (rs : List Record) (thr : Option ℚ) : List LBPre :=
  ((lbBase rs).filter (fun r => r.agentName != "Zayra Lopez")).map
    (fun r => LBPre.mk r.agentName r.calls r.newBooks (meetsThreshold thr r.calls))

theorem lbPre_pairwise_strLt (rs : List Record) (thr : Option ℚ) :
    (lbPre rs thr).Pairwise (fun x y => strLt x.agentName y.agentName) := by
  rw [lbPre]
  rw [List.pairwise_map]
  have hbase : (lbBase rs).Pairwise
      (fun x y : LBRow => strLt x.agentName y.agentName) := by
    rw [lbBase, List.pairwise_map]
    exact agentsSorted_pairwise_strLt rs
  exact hbase.filter _

theorem pairwise_enum_snd {α : Type} {R : α → α → Prop} {l : List α}
    (h : l.Pairwise R) : l.enum.Pairwise (fun p q => R p.2 q.2) := by
  have : (l.enum.map Prod.snd).Pairwise R := by
    rw [List.enum_map_snd]; exact h
  exact List.pairwise_map.mp this

theorem leaderboard_eq (rs : List Record) (thr : Option ℚ) :
    leaderboard rs thr = (List.insertionSort callsGe (lbPre rs thr)).enum.map
      (fun p => ⟨p.1 + 1, p.2.agentName, p.2.calls, p.2.newBooks, p.2.meets⟩) :=
  rfl

theorem leaderboard_pairwise_lbLex (rs : List Record) (thr : Option ℚ) :
    (leaderboard rs thr).Pairwise
      (fun x y : LBEntry => y.calls < x.calls ∨
        (x.calls = y.calls ∧ strLt x.agentName y.agentName)) := by
  rw [leaderboard_eq]
  rw [List.pairwise_map]
  have h3 : (List.insertionSort callsGe (lbPre rs thr)).Pairwise lbLex :=
    pairwise_lbLex_insertionSort _ (lbPre_pairwise_strLt rs thr)
  exact (pairwise_enum_snd h3).imp (fun h => h)

theorem lbPre_length (rs : List Record) (thr : Option ℚ) :
    (lbPre rs thr).length =
      ((agentsOf rs).filter (fun a => a != "Zayra Lopez")).length := by
  rw [lbPre, List.length_map, lbBase, List.filter_map, List.length_map]
  exact ((List.perm_insertionSort strLe (agentsOf rs)).filter _).length_eq

theorem leaderboard_map_rank (rs : List Record) (thr : Option ℚ) :
    (leaderboard rs thr).map (·.rank) =
      List.range' 1 (((agentsOf rs).filter (fun a => a != "Zayra Lopez")).length) := by
  rw [leaderboard_eq, List.map_map]
  have h1 : ((List.insertionSort callsGe (lbPre rs thr)).enum.map
      (fun p : Nat × LBPre => p.1 + 1)) =
      ((List.insertionSort callsGe (lbPre rs thr)).enum.map Prod.fst).map
        (fun n => n + 1) := by
    rw [List.map_map]
    rfl
  show ((List.insertionSort callsGe (lbPre rs thr)).enum.map
      (fun p : Nat × LBPre => p.1 + 1)) = _
  rw [h1, List.enum_map_fst, List.length_insertionSort, lbPre_length,
    List.range'_eq_map_range]
  exact List.map_congr_left (fun n _ => Nat.add_comm n 1)

theorem leaderboard_complete (rs : List Record) (thr : Option ℚ) (a : String)
    (ha : a ∈ agentsOf rs) (hz : a ≠ "Zayra Lopez") :
    ∃ e ∈ leaderboard rs thr, e.agentName = a := by
  have h1 : a ∈ agentsSorted rs := (List.mem_insertionSort strLe).mpr ha
  have h2 : (⟨a, countAgent a rs, countYes a rs⟩ : LBRow) ∈ lbBase rs :=
    List.mem_map_of_mem _ h1
  have h3 : (⟨a, countAgent a rs, countYes a rs⟩ : LBRow) ∈
      (lbBase rs).filter (fun r => r.agentName != "Zayra Lopez") :=
    List.mem_filter.mpr ⟨h2, bne_iff_ne.mpr hz⟩
  have h4 : (LBPre.mk a (countAgent a rs) (countYes a rs)
      (meetsThreshold thr (countAgent a rs))) ∈ lbPre rs thr :=
    List.mem_map_of_mem _ h3
  have h5 : (LBPre.mk a (countAgent a rs) (countYes a rs)
      (meetsThreshold thr (countAgent a rs))) ∈
      List.insertionSort callsGe (lbPre rs thr) :=
    (List.mem_insertionSort callsGe).mpr h4
  rw [← List.enum_map_snd (List.insertionSort callsGe (lbPre rs thr))] at h5
  obtain ⟨p, hp, hps⟩ := List.mem_map.mp h5
  refine ⟨⟨p.1 + 1, p.2.agentName, p.2.calls, p.2.newBooks, p.2.meets⟩, ?_, ?_⟩
  · rw [leaderboard_eq]
    exact List.mem_map_of_mem _ hp
  · rw [hps]

/-- C2, in the form the program actually guarantees: the leaderboard
lists exactly the agents of the record set other than the team lead
`"Zayra Lopez"`; its `Rank` column is the dense sequence `1, 2, …, N`
(in order) where `N` is the number of agents excluding the team lead;
every row's call count is that agent's total; rows are ordered by total
call count descending; and — for leaderboards of at most 16 rows, the
regime in which the default numpy sort is stable (see the module
docstring) — tied rows appear in ascending agent-name order, i.e. in
the stable pre-sort order of the groupby output.  Beyond 16 rows the
program's tie order is unspecified (pandas' default `kind="quicksort"`
is documented as unstable), which is the code bug recorded for this
claim; no tie-order statement is made there. -/
theorem leaderboard_spec (rs : List Record) (thr : Option ℚ) :
    (∀ a : String, (∃ e ∈ leaderboard rs thr, e.agentName = a) ↔
        (a ∈ agentsOf rs ∧ a ≠ "Zayra Lopez")) ∧
    (leaderboard rs thr).map (·.rank) =
      List.range' 1 (((agentsOf rs).filter (fun a => a != "Zayra Lopez")).length) ∧
    (∀ e ∈ leaderboard rs thr, e.calls = countAgent e.agentName rs) ∧
    (leaderboard rs thr).Pairwise (fun x y => y.calls ≤ x.calls) ∧
    ((leaderboard rs thr).length ≤ 16 →
      (leaderboard rs thr).Pairwise
        (fun x y => x.calls = y.calls → strLt x.agentName y.agentName)) := by
  refine ⟨?_, leaderboard_map_rank rs thr, ?_, ?_, fun _ => ?_⟩
  · intro a
    constructor
    · rintro ⟨e, he, rfl⟩
      have h := leaderboard_mem_shape rs thr e he
      exact ⟨h.1, h.2.1⟩
    · rintro ⟨ha, hz⟩
      exact leaderboard_complete rs thr a ha hz
  · intro e he
    exact (leaderboard_mem_shape rs thr e he).2.2.1
  · exact (leaderboard_pairwise_lbLex rs thr).imp (fun h => by
      rcases h with h | ⟨h, _⟩
      · exact le_of_lt h
      · exact le_of_eq h.symm)
  · exact (leaderboard_pairwise_lbLex rs thr).imp (fun h => by
      rcases h with h | ⟨_, h⟩
      · intro heq
        exact absurd heq (ne_of_gt h)
      · intro _
        exact h)

/-- Witness instantiating `leaderboard_spec`: agent `"Ann"` of
`kpiExample` appears on the leaderboard, and the two-row leaderboard is
inside the ≤ 16-row regime, so its tie order is the stable one. -/
theorem leaderboard_spec_witness :
    (∃ e ∈ leaderboard kpiExample none, e.agentName = "Ann") ∧
    (leaderboard kpiExample none).Pairwise
      (fun x y => x.calls = y.calls → strLt x.agentName y.agentName) :=
  ⟨(leaderboard_spec kpiExample none).1 "Ann" |>.mpr ⟨by decide, by decide⟩,
   (leaderboard_spec kpiExample none).2.2.2.2 (by decide)⟩

/-- The underperformer panel of lines 194–199: either the table of
rows failing the threshold (`st.table`) or the distinct all-pass
success message (`st.success`). -/
inductive UnderView where
  | table : List LBEntry → UnderView
  | allPass : UnderView
deriving Repr, DecidableEq

/-- Lines 195–199: `under = lb[~lb["Meets 75%"]]`; a nonempty `under`
is displayed as a table, an empty one as the all-pass message. -/
def underView (lb : List LBEntry) : UnderView :=
  let under := lb.filter (fun e => !e.meets)
  if under.isEmpty then .allPass else .table under

theorem underView_cases (lb : List LBEntry) :
    (underView lb = .allPass ↔ ∀ e ∈ lb, e.meets = true) ∧
    (∀ u, underView lb = .table u →
      u ≠ [] ∧ u = lb.filter (fun e => !e.meets)) := by
  by_cases h : (lb.filter (fun e => !e.meets)).isEmpty
  · have hv : underView lb = .allPass := by
      simp only [underView]
      rw [if_pos h]
    have h0 : lb.filter (fun e => !e.meets) = [] := List.isEmpty_iff.mp h
    constructor
    · constructor
      · intro _ e he
        have h1 := List.filter_eq_nil_iff.mp h0 e he
        simpa using h1
      · intro _
        exact hv
    · intro u hu
      rw [hv] at hu
      exact absurd hu (by simp)
  · have hv : underView lb = .table (lb.filter (fun e => !e.meets)) := by
      simp only [underView]
      rw [if_neg h]
    constructor
    · constructor
      · intro hall
        rw [hv] at hall
        exact absurd hall (by simp)
      · intro hall
        exfalso
        apply h
        have h0 : lb.filter (fun e => !e.meets) = [] :=
          List.filter_eq_nil_iff.mpr (fun e he => by simp [hall e he])
        rw [h0]
        rfl
    · intro u hu
      rw [hv] at hu
      have hue : u = lb.filter (fun e => !e.meets) := by
        injection hu with h'
        exact h'.symm
      refine ⟨?_, hue⟩
      rw [hue]
      intro hnil
      exact h (by rw [hnil]; rfl)

/-- A record set containing only the team lead: after the team-lead
exclusion the leaderboard is empty. -/
def teamLeadOnly : List Record :=
  [⟨"Zayra Lopez", 0, "X", "No"⟩]

/-- Counterexample to C4 as stated: on `teamLeadOnly` the leaderboard
is empty, yet the underperformer panel still emits the all-pass
success state, so an empty leaderboard is not distinguishable from
"all agents pass" in that panel. -/
theorem underView_allPass_empty_leaderboard :
    leaderboard teamLeadOnly (threshold75 teamLeadOnly) = [] ∧
    underView (leaderboard teamLeadOnly (threshold75 teamLeadOnly)) =
      UnderView.allPass :=
  ⟨rfl, rfl⟩

/-- C4 (amended): the all-pass state is reported exactly when every
leaderboard entry meets the threshold — including, vacuously, when the
leaderboard is empty — and otherwise the panel shows the nonempty table
of entries with `meetsThreshold = false`; an empty underperformer table
is never displayed. -/
theorem underperformers_spec (rs : List Record) (thr : Option ℚ) :
    (underView (leaderboard rs thr) = UnderView.allPass ↔
      ∀ e ∈ leaderboard rs thr, e.meets = true) ∧
    (∀ u, underView (leaderboard rs thr) = UnderView.table u →
      u ≠ [] ∧ u = (leaderboard rs thr).filter (fun e => !e.meets)) :=
  underView_cases (leaderboard rs thr)

/-- Witness instantiating `underperformers_spec` where the table branch
is taken (threshold `NaN`, so every flag is `false`). -/
theorem underperformers_spec_witness :
    ((leaderboard kpiExample none).filter (fun e => !e.meets)) ≠ [] ∧
    ((leaderboard kpiExample none).filter (fun e => !e.meets)) =
      (leaderboard kpiExample none).filter (fun e => !e.meets) :=
  (underperformers_spec kpiExample none).2 _ (by rfl)

/-- The sidebar filter specification of lines 74–84: an empty list (or
`none` for the date range) means the corresponding filter is not
applied. -/
structure FilterSpec where
  agents : List String
  reasons : List String
  dateRange : Option (Int × Int)

/-- Lines 78–84: agent filter, then reason filter, then inclusive
date-range filter on `Call Date`. -/
def applyFilters (f : FilterSpec) (rs : List Record) : List Record :=
  let rs1 := if f.agents.isEmpty then rs
    else rs.filter (fun r => f.agents.contains r.agentName)
  let rs2 := if f.reasons.isEmpty then rs1
    else rs1.filter (fun r => f.reasons.contains r.reason)
  match f.dateRange with
  | none => rs2
  | some (s, e) =>
      rs2.filter (fun r => decide (s ≤ callDate r) && decide (callDate r ≤ e))

/-- The agent-view outputs relevant to the KPI pipeline. -/
structure Dashboard where
  threshold : Option ℚ
  lb : List LBEntry
  under : UnderView

/-- The script's dataflow for the KPI outputs: the threshold is
computed on the full record set (lines 47–52, before the sidebar
filters of lines 78–84 are applied), the leaderboard on the filtered
set (lines 175–182) against that threshold, and the underperformer
panel from the leaderboard (lines 194–199). -/
def runDashboard (rs : List Record) (f : FilterSpec) : Dashboard :=
  let thr := threshold75 rs
  let dff := applyFilters f rs
  let lb := leaderboard dff thr
  ⟨thr, lb, underView lb⟩

/-- C9: the 75% threshold is a frame invariant of filtering — for every
filter specification it equals the threshold of the unfiltered record
set (and in particular the threshold obtained with no filters at all),
while the leaderboard's call counts do come from the filtered subset
and are compared against that unfiltered threshold. -/
theorem threshold_filter_invariant (rs : List Record) (f : FilterSpec) :
    (runDashboard rs f).threshold = threshold75 rs ∧
    (runDashboard rs f).threshold = (runDashboard rs ⟨[], [], none⟩).threshold ∧
    (∀ e ∈ (runDashboard rs f).lb,
      e.calls = countAgent e.agentName (applyFilters f rs) ∧
      e.meets = meetsThreshold (threshold75 rs) e.calls) := by
  refine ⟨rfl, rfl, ?_⟩
  intro e he
  have h := leaderboard_mem_shape (applyFilters f rs) (threshold75 rs) e he
  exact ⟨h.2.2.1, h.2.2.2.2⟩

/-- Witness instantiating `threshold_filter_invariant` with a
reason filter that removes one of the two records. -/
theorem threshold_filter_invariant_witness :
    ((⟨1, "Kim Villafuerte", 1, 0, false⟩ : LBEntry).calls =
      countAgent "Kim Villafuerte"
        (applyFilters ⟨[], ["X"], none⟩
          [⟨"Kim Villafuerte", 0, "X", "No"⟩,
           ⟨"Kim Villafuerte", 600, "Y", "Yes"⟩])) ∧
    ((⟨1, "Kim Villafuerte", 1, 0, false⟩ : LBEntry).meets =
      meetsThreshold
        (threshold75 [⟨"Kim Villafuerte", 0, "X", "No"⟩,
                      ⟨"Kim Villafuerte", 600, "Y", "Yes"⟩])
        (⟨1, "Kim Villafuerte", 1, 0, false⟩ : LBEntry).calls) :=
  (threshold_filter_invariant
    [⟨"Kim Villafuerte", 0, "X", "No"⟩, ⟨"Kim Villafuerte", 600, "Y", "Yes"⟩]
    ⟨[], ["X"], none⟩).2.2 ⟨1, "Kim Villafuerte", 1, 0, false⟩ (by decide)

/-- The defined (non-NaN) entries of one agent's `Idle Time (min)`
column. -/
def idlesOf (rs : List Record) (a : String) : List ℚ :=
  ((deriveFeatures rs).filter (fun e => e.row.agentName == a)).filterMap (·.idle)

/-- `("Idle Time (min)", "mean")` within one agent's group: pandas
`mean` skips NaN, and is itself NaN (`none`) when no value remains. -/
def meanIdle (rs : List Record) (a : String) : Option ℚ :=
  if (idlesOf rs a).isEmpty then none
  else some ((idlesOf rs a).sum / ((idlesOf rs a).length : ℚ))

/-- A row of `summary_by_agent` right after the aggregation of lines
55–59, before the display rewrite of lines 61–67. -/
structure AgentSummaryRaw where
  agentName : String
  totalCalls : Nat
  avgIdleRaw : Option ℚ
  newBookings : Nat
deriving Repr

/-- Lines 55–59: `df.groupby("Agent Name").agg(...)`, one row per agent
in ascending name order. -/
def summaryRaw (rs : List Record) : List AgentSummaryRaw :=
  (agentsSorted rs).map (fun a => ⟨a, countAgent a rs, meanIdle rs a, countYes a rs⟩)

/-- numpy/pandas `Series.round()`: round half to even. -/
def roundHalfEven (q : ℚ) : Int :=
  if q - (⌊q⌋ : ℚ) < 1 / 2 then ⌊q⌋
  else if (1 : ℚ) / 2 < q - (⌊q⌋ : ℚ) then ⌊q⌋ + 1
  else if ⌊q⌋ % 2 = 0 then ⌊q⌋ else ⌊q⌋ + 1

/-- A row of `summary_by_agent` after lines 61–67 replaced the
`Avg_Idle_Time_min` column with its rounded string rendering. -/
structure AgentSummaryDisplay where
  agentName : String
  totalCalls : Nat
  avgIdleDisplay : String
  newBookings : Nat
deriving Repr, DecidableEq

/-- Lines 61–67: `.round().astype(int).astype(str) + " mins"` applied
to the whole column; `astype(int)` raises on any NaN entry, aborting
the whole assignment. -/
def displayRows : List AgentSummaryRaw → Except String (List AgentSummaryDisplay)
  | [] => Except.ok []
  | row :: rest =>
      match row.avgIdleRaw with
      | none => Except.error "Cannot convert non-finite values (NA or inf) to integer"
      | some q =>
          match displayRows rest with
          | Except.error e => Except.error e
          | Except.ok tl =>
              Except.ok (⟨row.agentName, row.totalCalls,
                toString (roundHalfEven q) ++ " mins", row.newBookings⟩ :: tl)

/-- Lines 55–67: the final `summary_by_agent` table (or the exception
raised while building it). -/
def summaryByAgent (rs : List Record) : Except String (List AgentSummaryDisplay) :=
  displayRows (summaryRaw rs)

theorem idleSeq_filterMap_length_some : ∀ (t : Int) (l : List Record),
    ((idleSeq (some t) l).filterMap (·.idle)).length = l.length
  | _, [] => rfl
  | t, r :: rest => by
      simp [idleSeq, List.filterMap_cons,
        idleSeq_filterMap_length_some r.timestamp rest]

theorem idleSeq_filterMap_length_none : ∀ l : List Record,
    ((idleSeq none l).filterMap (·.idle)).length = l.length - 1
  | [] => rfl
  | r :: rest => by
      simp [idleSeq, List.filterMap_cons,
        idleSeq_filterMap_length_some r.timestamp rest]

theorem idlesOf_length (rs : List Record) (a : String) :
    (idlesOf rs a).length = countAgent a rs - 1 := by
  rw [idlesOf, deriveFeatures_filter, idleSeq_filterMap_length_none,
    ← List.countP_eq_length_filter]
  rw [countAgent]
  congr 1
  exact (List.perm_insertionSort rowLe rs).countP_eq _

theorem meanIdle_isSome_iff (rs : List Record) (a : String) :
    (∃ q, meanIdle rs a = some q) ↔ 2 ≤ countAgent a rs := by
  rw [meanIdle]
  by_cases h : (idlesOf rs a).isEmpty
  · rw [if_pos h]
    constructor
    · rintro ⟨q, hq⟩
      exact Option.noConfusion hq
    · intro hc
      exfalso
      have h0 : (idlesOf rs a).length = 0 := by
        rw [List.isEmpty_iff.mp h]; rfl
      rw [idlesOf_length] at h0
      omega
  · rw [if_neg h]
    simp only [Option.some.injEq, exists_eq']
    constructor
    · intro _
      have h0 : (idlesOf rs a).length ≠ 0 := by
        intro hc
        exact h (List.isEmpty_iff.mpr (List.length_eq_zero.mp hc))
      have := idlesOf_length rs a
      omega
    · intro _; trivial

theorem displayRows_ok_iff : ∀ rows : List AgentSummaryRaw,
    (∃ out, displayRows rows = Except.ok out) ↔
      ∀ row ∈ rows, row.avgIdleRaw ≠ none
  | [] => by simp [displayRows]
  | row :: rest => by
      cases hr : row.avgIdleRaw with
      | none =>
          simp only [displayRows, hr]
          constructor
          · rintro ⟨out, hout⟩
            exact absurd hout (by simp)
          · intro hall
            exact absurd hr (hall row (List.mem_cons_self _ _))
      | some q =>
          simp only [displayRows, hr]
          cases hd : displayRows rest with
          | error e =>
              constructor
              · rintro ⟨out, hout⟩
                exact absurd hout (by simp)
              · intro hall
                obtain ⟨out, hout⟩ := (displayRows_ok_iff rest).mpr
                  (fun r hrm => hall r (List.mem_cons_of_mem _ hrm))
                rw [hd] at hout
                exact absurd hout (by simp)
          | ok tl =>
              constructor
              · intro _ r hrm
                rcases List.mem_cons.mp hrm with rfl | hrm'
                · rw [hr]; simp
                · exact (displayRows_ok_iff rest).mp ⟨tl, hd⟩ r hrm'
              · intro _
                exact ⟨_, rfl⟩

theorem displayRows_error_of_mem (rows : List AgentSummaryRaw)
    (h : ∃ row ∈ rows, row.avgIdleRaw = none) :
    ∃ e, displayRows rows = Except.error e := by
  cases hd : displayRows rows with
  | error e => exact ⟨e, rfl⟩
  | ok out =>
      obtain ⟨row, hm, hn⟩ := h
      exact absurd hn ((displayRows_ok_iff rows).mp ⟨out, hd⟩ row hm)

/-- C10: building `summary_by_agent` succeeds whenever every agent of
the input has at least two records, and raises (from `astype(int)` on
the NaN mean) whenever some agent has exactly one record. -/
theorem summary_build_safety (rs : List Record) :
    ((∀ a ∈ agentsOf rs, 2 ≤ countAgent a rs) →
      ∃ out, summaryByAgent rs = Except.ok out) ∧
    ((∃ a ∈ agentsOf rs, countAgent a rs = 1) →
      ∃ e, summaryByAgent rs = Except.error e) := by
  constructor
  · intro hall
    rw [summaryByAgent]
    apply (displayRows_ok_iff _).mpr
    intro row hm
    rw [summaryRaw] at hm
    obtain ⟨a, ha, rfl⟩ := List.mem_map.mp hm
    have ha' : a ∈ agentsOf rs := (List.mem_insertionSort strLe).mp ha
    obtain ⟨q, hq⟩ := (meanIdle_isSome_iff rs a).mpr (hall a ha')
    show meanIdle rs a ≠ none
    rw [hq]
    simp
  · rintro ⟨a, ha, h1⟩
    rw [summaryByAgent]
    apply displayRows_error_of_mem
    refine ⟨⟨a, countAgent a rs, meanIdle rs a, countYes a rs⟩, ?_, ?_⟩
    · rw [summaryRaw]
      exact List.mem_map_of_mem _ ((List.mem_insertionSort strLe).mpr ha)
    · show meanIdle rs a = none
      cases hm : meanIdle rs a with
      | none => rfl
      | some q =>
          have := (meanIdle_isSome_iff rs a).mp ⟨q, hm⟩
          omega

/-- Agent `"A"` calls three times, 5 then 10 minutes apart: the raw
average idle time is `7.5` minutes. -/
def idleMeanExample : List Record :=
  [⟨"A", 0, "X", "No"⟩, ⟨"A", 300, "X", "No"⟩, ⟨"A", 900, "X", "No"⟩]

/-- An input with a single-record agent, on which the summary build
raises. -/
def singleCallExample : List Record :=
  [⟨"B", 0, "X", "No"⟩]

/-- Witness instantiating both halves of `summary_build_safety`. -/
theorem summary_build_safety_witness :
    (∃ out, summaryByAgent idleMeanExample = Except.ok out) ∧
    (∃ e, summaryByAgent singleCallExample = Except.error e) :=
  ⟨(summary_build_safety idleMeanExample).1 (by decide),
   (summary_build_safety singleCallExample).2 ⟨"B", by decide, by decide⟩⟩

theorem sort_idleMeanExample :
    sortValuesAgentTs idleMeanExample = idleMeanExample := by decide

theorem idlesOf_idleMeanExample :
    idlesOf idleMeanExample "A" = [5, 10] := by
  rw [idlesOf, deriveFeatures_filter, sort_idleMeanExample]
  show ((idleSeq none (List.filter (fun r => r.agentName == "A") idleMeanExample)).filterMap
    (·.idle)) = [5, 10]
  have hf : List.filter (fun r => r.agentName == "A") idleMeanExample =
      idleMeanExample := by decide
  rw [hf]
  show ((idleSeq none
    [⟨"A", 0, "X", "No"⟩, ⟨"A", 300, "X", "No"⟩, ⟨"A", 900, "X", "No"⟩]).filterMap
      (·.idle)) = [5, 10]
  simp only [idleSeq, List.filterMap_cons, Option.map_some, Option.map_none]
  norm_num

theorem meanIdle_idleMeanExample :
    meanIdle idleMeanExample "A" = some (15 / 2 : ℚ) := by
  rw [meanIdle, idlesOf_idleMeanExample]
  norm_num

theorem roundHalfEven_example : roundHalfEven (15 / 2 : ℚ) = 8 := by
  rw [roundHalfEven]
  have hf : (⌊(15 / 2 : ℚ)⌋ : Int) = 7 := by
    rw [Int.floor_eq_iff]
    norm_num
  rw [hf]
  norm_num

theorem summary_example_eval :
    summaryByAgent idleMeanExample =
      Except.ok [⟨"A", 3, "8 mins", 0⟩] := by
  rw [summaryByAgent, summaryRaw]
  have hA : agentsSorted idleMeanExample = ["A"] := by decide
  rw [hA]
  simp only [List.map_cons, List.map_nil]
  simp only [displayRows, meanIdle_idleMeanExample]
  rw [roundHalfEven_example]
  have hc : countAgent "A" idleMeanExample = 3 := by decide
  have hy : countYes "A" idleMeanExample = 0 := by decide
  rw [hc, hy]
  rfl

/-- Counterexample to C6 as stated: on `idleMeanExample` the raw mean
idle time is `7.5` minutes (the mean of the defined values 5 and 10),
but the built summary stores only the rounded string `"8 mins"` in the
`Avg_Idle_Time_min` column — the column is overwritten in place, so the
raw float average is not available from the summary, and the rounded
value differs from it. -/
theorem summary_overwrites_raw :
    summaryByAgent idleMeanExample = Except.ok [⟨"A", 3, "8 mins", 0⟩] ∧
    meanIdle idleMeanExample "A" = some (15 / 2 : ℚ) ∧
    ((roundHalfEven (15 / 2 : ℚ) : ℚ)) ≠ (15 / 2 : ℚ) :=
  ⟨summary_example_eval, meanIdle_idleMeanExample, by
    rw [roundHalfEven_example]
    norm_num⟩

theorem displayRows_ok_forall : ∀ (rows : List AgentSummaryRaw)
    (out : List AgentSummaryDisplay), displayRows rows = Except.ok out →
    List.Forall₂ (fun (row : AgentSummaryRaw) (d : AgentSummaryDisplay) =>
      ∃ q : ℚ, row.avgIdleRaw = some q ∧
        d = ⟨row.agentName, row.totalCalls,
          toString (roundHalfEven q) ++ " mins", row.newBookings⟩) rows out
  | [], out, h => by
      simp only [displayRows, Except.ok.injEq] at h
      rw [← h]
      exact List.Forall₂.nil
  | row :: rest, out, h => by
      cases hr : row.avgIdleRaw with
      | none =>
          simp only [displayRows, hr] at h
          exact absurd h (by simp)
      | some q =>
          simp only [displayRows, hr] at h
          cases hd : displayRows rest with
          | error e =>
              rw [hd] at h
              exact absurd h (by simp)
          | ok tl =>
              rw [hd] at h
              simp only [Except.ok.injEq] at h
              rw [← h]
              exact List.Forall₂.cons ⟨q, hr, rfl⟩
                (displayRows_ok_forall rest tl hd)

/-- C6 (amended): whenever the summary is built successfully, each
agent's raw average `q` is the mean of exactly that agent's defined
idle-time values (each agent's undefined first-call value is excluded),
and the summary row stores, in place of the raw average, only the
string rendering of `q` rounded half-to-even — the raw float does not
remain available in the built summary. -/
theorem summary_avg_idle_spec (rs : List Record)
    (out : List AgentSummaryDisplay)
    (h : summaryByAgent rs = Except.ok out) :
    List.Forall₂ (fun (a : String) (d : AgentSummaryDisplay) =>
      ∃ q : ℚ, meanIdle rs a = some q ∧
        (idlesOf rs a) ≠ [] ∧
        q * ((idlesOf rs a).length : ℚ) = (idlesOf rs a).sum ∧
        d = ⟨a, countAgent a rs, toString (roundHalfEven q) ++ " mins",
             countYes a rs⟩) (agentsSorted rs) out := by
  rw [summaryByAgent, summaryRaw] at h
  have hf := displayRows_ok_forall _ _ h
  rw [List.forall₂_map_left_iff] at hf
  refine hf.imp ?_
  intro a d hd
  obtain ⟨q, hq, rfl⟩ := hd
  have hq' : meanIdle rs a = some q := hq
  refine ⟨q, hq', ?_, ?_, rfl⟩
  · intro hnil
    rw [meanIdle, if_pos (by rw [hnil]; rfl)] at hq'
    exact Option.noConfusion hq'
  · rw [meanIdle] at hq'
    by_cases he : (idlesOf rs a).isEmpty
    · rw [if_pos he] at hq'
      exact absurd hq' (by simp)
    · rw [if_neg he] at hq'
      have hqe : q = (idlesOf rs a).sum / ((idlesOf rs a).length : ℚ) := by
        injection hq' with h'
        exact h'.symm
      have hne : idlesOf rs a ≠ [] := fun hnil => he (by rw [hnil]; rfl)
      have hlen : ((idlesOf rs a).length : ℚ) ≠ 0 := by
        have h0 : 0 < (idlesOf rs a).length := List.length_pos.mpr hne
        exact_mod_cast Nat.pos_iff_ne_zero.mp h0
      rw [hqe]
      field_simp

/-- Witness instantiating `summary_avg_idle_spec` on `idleMeanExample`
(whose summary build succeeds). -/
theorem summary_avg_idle_spec_witness :
    List.Forall₂ (fun (a : String) (d : AgentSummaryDisplay) =>
      ∃ q : ℚ, meanIdle idleMeanExample a = some q ∧
        (idlesOf idleMeanExample a) ≠ [] ∧
        q * ((idlesOf idleMeanExample a).length : ℚ) =
          (idlesOf idleMeanExample a).sum ∧
        d = ⟨a, countAgent a idleMeanExample,
             toString (roundHalfEven q) ++ " mins",
             countYes a idleMeanExample⟩)
      (agentsSorted idleMeanExample) [⟨"A", 3, "8 mins", 0⟩] :=
  summary_avg_idle_spec idleMeanExample _ summary_example_eval

/-- One `(key, value)` row per key: the generic shape of a pandas
`groupby(...).size()` result or of an unstacked table, used for
lookups. -/
def tabulate {κ β : Type} (l : List κ) (f : κ → β) : List (κ × β) :=
  l.map (fun k => (k, f k))

theorem tabulate_cons {κ β : Type} (f : κ → β) (x : κ) (xs : List κ) :
    tabulate (x :: xs) f = (x, f x) :: tabulate xs f :=
  rfl

theorem lookup_tabulate {κ β : Type} [BEq κ] [LawfulBEq κ]
    (f : κ → β) (k : κ) : ∀ (l : List κ),
    ((tabulate l f).find? (fun q => q.1 == k)).map (·.2) =
      if k ∈ l then some (f k) else none
  | [] => by simp [tabulate]
  | x :: xs => by
      rw [tabulate_cons, List.find?_cons]
      by_cases hxk : x == k
      · have : x = k := eq_of_beq hxk
        subst this
        simp
      · have hxkb : (x == k) = false := by
          cases h : x == k
          · rfl
          · exact absurd h hxk
        simp only [hxkb, cond_false]
        rw [lookup_tabulate f k xs]
        have hne : ¬ k = x := fun h => by
          subst h
          simp at hxkb
        simp [List.mem_cons, hne]

/-- Line 70: the fixed weekday axis. -/
def WEEKDAYS : List String :=
  ["Monday", "Tuesday", "Wednesday", "Thursday", "Friday"]

/-- `groupby(key).size()` for string keys: one row per distinct key in
ascending order (pandas sorts group keys), holding the key's
multiplicity. -/
def groupSizes (keys : List String) : List (String × Nat) :=
  tabulate (List.insertionSort strLe keys.dedup) (fun k => keys.count k)

/-- `.reindex(axis, fill_value=0)`: one row per axis label, with the
table's value for that label, or `0` when absent. -/
def reindex0 (axis : List String) (tbl : List (String × Nat)) :
    List (String × Nat) :=
  axis.map (fun d => (d, (((tbl.find? (fun q => q.1 == d)).map (·.2)).getD 0)))

/-- Lines 113–119: weekday volume — filter to Monday–Friday, group by
day name, reindex on the fixed axis with zero fill. -/
def dowCounts (rs : List Record) : List (String × Nat) :=
  reindex0 WEEKDAYS
    (groupSizes ((rs.filter (fun r => WEEKDAYS.contains (dayName r))).map dayName))

theorem contains_true_of_mem {a : String} {l : List String} (h : a ∈ l) :
    l.contains a = true :=
  List.elem_iff.mpr h

/-- C8: the day-of-week volume series always has exactly the five
entries Monday…Friday, in that fixed order; each entry's count is the
number of records falling on that weekday (zero when the weekday is
absent from the data); and weekend records do not contribute — the
series of `rs` equals the series of `rs` restricted to weekday
records. -/
theorem dow_counts_spec (rs : List Record) :
    (dowCounts rs).map Prod.fst = WEEKDAYS ∧
    (dowCounts rs).length = 5 ∧
    (∀ d c, (d, c) ∈ dowCounts rs →
      c = rs.countP (fun r => dayName r == d)) ∧
    dowCounts rs = dowCounts (rs.filter (fun r => WEEKDAYS.contains (dayName r))) := by
  refine ⟨?_, ?_, ?_, ?_⟩
  · rw [dowCounts, reindex0, List.map_map]
    exact List.map_id _
  · rw [dowCounts, reindex0, List.length_map]
    rfl
  · intro d c hm
    rw [dowCounts, reindex0] at hm
    obtain ⟨d0, hd', heq⟩ := List.mem_map.mp hm
    injection heq with h1 h2
    rw [← h1, ← h2]
    rw [groupSizes, lookup_tabulate]
    set keys := ((rs.filter (fun r => WEEKDAYS.contains (dayName r))).map dayName)
      with hkeys
    by_cases hin : d0 ∈ List.insertionSort strLe keys.dedup
    · rw [if_pos hin, Option.getD_some]
      rw [List.count_eq_countP, hkeys, List.countP_map, List.countP_filter]
      symm
      apply List.countP_congr
      intro r _
      show (dayName r == d0) = true ↔
        ((dayName r == d0) && WEEKDAYS.contains (dayName r)) = true
      constructor
      · intro hb
        have hrd : dayName r = d0 := eq_of_beq hb
        rw [Bool.and_eq_true_iff]
        exact ⟨hb, by rw [hrd]; exact contains_true_of_mem hd'⟩
      · intro hb
        exact (Bool.and_eq_true_iff.mp hb).1
    · rw [if_neg hin, Option.getD_none]
      symm
      rw [List.countP_eq_zero]
      intro r hr hb
      apply hin
      have hrd : dayName r = d0 := eq_of_beq hb
      rw [List.mem_insertionSort, List.mem_dedup, hkeys]
      rw [← hrd]
      apply List.mem_map_of_mem
      rw [List.mem_filter]
      exact ⟨hr, by rw [hrd]; exact contains_true_of_mem hd'⟩
  · have hff : (rs.filter (fun r => WEEKDAYS.contains (dayName r))).filter
        (fun r => WEEKDAYS.contains (dayName r)) =
        rs.filter (fun r => WEEKDAYS.contains (dayName r)) := by
      rw [List.filter_filter]
      exact List.filter_congr (fun a _ => Bool.and_self _)
    rw [dowCounts, dowCounts, hff]

/-- Two records, one on a Monday (day 4 since the epoch) and one on a
Saturday (day 2 since the epoch). -/
def dowExample : List Record :=
  [⟨"A", 345600, "X", "No"⟩, ⟨"A", 172800, "X", "No"⟩]

/-- Witness instantiating `dow_counts_spec`: the Monday entry of the
series counts exactly the Monday record. -/
theorem dow_counts_spec_witness :
    (1 : Nat) = dowExample.countP (fun r => dayName r == "Monday") :=
  (dow_counts_spec dowExample).2.2.1 "Monday" 1 (by decide)

/-- The distinct `Call Date` values of the record set: the columns of
the unstacked agent × date table of lines 219–224 (as a set; every
date present for any agent yields a column). -/
def datesOf (rs : List Record) : List Int :=
  (rs.map callDate).dedup

/-- The rows of the daily-counts matrix after
`.drop(index="Zayra Lopez", errors="ignore")`. -/
def stdAgents (rs : List Record) : List String :=
  (agentsSorted rs).filter (fun a => a != "Zayra Lopez")

/-- `df.groupby(["Agent Name","Call Date"]).size()`: one row per
distinct (agent, date) pair with its multiplicity. -/
def agentDateSizes (rs : List Record) : List ((String × Int) × Nat) :=
  tabulate (rs.map (fun r => (r.agentName, callDate r))).dedup
    (fun p => rs.countP (fun r => (r.agentName, callDate r) == p))

/-- Cell `(a, d)` of the unstacked, zero-filled matrix
(`.unstack(fill_value=0)`). -/
def cellOf (rs : List Record) (a : String) (d : Int) : Nat :=
  (((agentDateSizes rs).find? (fun q => q.1 == (a, d))).map (·.2)).getD 0

/-- Row mean of the daily-counts matrix. -/
def rowMeanDaily (rs : List Record) (a : String) : ℚ :=
  ((datesOf rs).map (fun d => (cellOf rs a d : ℚ))).sum / ((datesOf rs).length : ℚ)

/-- The square of `daily_counts.std(axis=1)` (line 225): pandas `std`
uses the sample convention `ddof=1`, and is NaN (`none`) when at most
one column exists. -/
def stdSqDaily (rs : List Record) (a : String) : Option ℚ :=
  if (datesOf rs).length ≤ 1 then none
  else some ((((datesOf rs).map
      (fun d => ((cellOf rs a d : ℚ) - rowMeanDaily rs a) ^ 2)).sum) /
    (((datesOf rs).length : ℚ) - 1))

theorem cellOf_eq_countP (rs : List Record) (a : String) (d : Int) :
    cellOf rs a d =
      rs.countP (fun r => r.agentName == a && callDate r == d) := by
  rw [cellOf, agentDateSizes, lookup_tabulate]
  by_cases hm : (a, d) ∈ (rs.map (fun r => (r.agentName, callDate r))).dedup
  · rw [if_pos hm, Option.getD_some]
    apply List.countP_congr
    intro r _
    rw [beq_iff_eq, Bool.and_eq_true_iff, beq_iff_eq, beq_iff_eq, Prod.mk.injEq]
  · rw [if_neg hm, Option.getD_none]
    symm
    rw [List.countP_eq_zero]
    intro r hr hb
    apply hm
    rw [Bool.and_eq_true_iff] at hb
    have h1 : r.agentName = a := eq_of_beq hb.1
    have h2 : callDate r = d := eq_of_beq hb.2
    rw [List.mem_dedup, ← h1, ← h2]
    exact List.mem_map_of_mem _ hr

/-- C7: for every agent row of the daily-counts matrix (all agents of
the data except the dropped team lead), the reported statistic is the
sample variance — denominator `N − 1` where `N` is the number of
distinct call dates present in the data for any agent — of that agent's
daily call counts over the dense zero-filled agent × date matrix: a
date on which the agent has no records contributes the value `0`
whenever the date appears in the data at all (in particular through
another agent).  The reported standard deviation is the square root of
this value. -/
theorem std_daily_spec (rs : List Record) (a : String)
    (hn : 2 ≤ (datesOf rs).length) (ha : a ∈ stdAgents rs) :
    a ≠ "Zayra Lopez" ∧
    (datesOf rs).Nodup ∧
    (∀ d : Int, (∃ r ∈ rs, callDate r = d) ↔ d ∈ datesOf rs) ∧
    ∃ v, stdSqDaily rs a = some v ∧
      v = (((datesOf rs).map (fun d =>
          ((rs.countP (fun r => r.agentName == a && callDate r == d) : ℚ) -
            (((datesOf rs).map (fun d' =>
              (rs.countP (fun r => r.agentName == a && callDate r == d') : ℚ))).sum /
              ((datesOf rs).length : ℚ))) ^ 2)).sum) /
        (((datesOf rs).length : ℚ) - 1) := by
  refine ⟨?_, List.nodup_dedup _, ?_, ?_⟩
  · exact bne_iff_ne.mp (List.mem_filter.mp ha).2
  · intro d
    constructor
    · rintro ⟨r, hr, rfl⟩
      rw [datesOf, List.mem_dedup]
      exact List.mem_map_of_mem _ hr
    · intro hd
      rw [datesOf, List.mem_dedup] at hd
      obtain ⟨r, hr, hrd⟩ := List.mem_map.mp hd
      exact ⟨r, hr, hrd⟩
  · rw [stdSqDaily, if_neg (by omega)]
    refine ⟨_, rfl, ?_⟩
    have hmean : rowMeanDaily rs a =
        ((datesOf rs).map (fun d' =>
          (rs.countP (fun r => r.agentName == a && callDate r == d') : ℚ))).sum /
          ((datesOf rs).length : ℚ) := by
      rw [rowMeanDaily]
      congr 1
      congr 1
      apply List.map_congr_left
      intro d _
      rw [cellOf_eq_countP]
    congr 1
    congr 1
    apply List.map_congr_left
    intro d _
    rw [cellOf_eq_countP, hmean]

/-- Two agents over two calendar dates; agent `"B"` is active on only
one of them, so the zero-filled matrix gives `B` the daily counts
`1` and `0`. -/
def stdExample : List Record :=
  [⟨"A", 0, "X", "No"⟩, ⟨"A", 86400, "X", "No"⟩, ⟨"B", 0, "X", "No"⟩]

/-- Witness instantiating `std_daily_spec` for agent `"B"` of
`stdExample`. -/
theorem std_daily_spec_witness :
    "B" ≠ "Zayra Lopez" ∧
    (datesOf stdExample).Nodup ∧
    (∀ d : Int, (∃ r ∈ stdExample, callDate r = d) ↔ d ∈ datesOf stdExample) ∧
    ∃ v, stdSqDaily stdExample "B" = some v ∧
      v = (((datesOf stdExample).map (fun d =>
          ((stdExample.countP (fun r => r.agentName == "B" && callDate r == d) : ℚ) -
            (((datesOf stdExample).map (fun d' =>
              (stdExample.countP (fun r => r.agentName == "B" && callDate r == d') : ℚ))).sum /
              ((datesOf stdExample).length : ℚ))) ^ 2)).sum) /
        (((datesOf stdExample).length : ℚ) - 1) :=
  std_daily_spec stdExample "B" (by decide) (by decide)

/-- A raw uploaded table: a header row and data rows of cells, aligned
positionally with the header. -/
structure RawTable where
  header : List String
  rows : List (List String)

/-- The value of column `c` in a row (`None` when the column is missing
or the row is short). -/
def getCell (header : List String) (row : List String) (c : String) :
    Option String :=
  (header.indexOf? c).bind (fun i => row.get? i)

/-- Line 21–25: the fixed rename map (`"New patient?"` maps to
itself). -/
def renameCol (c : String) : String :=
  if c = "Agent Name:" then "Agent Name"
  else if c = "Reason for Calling:" then "Reason for Calling"
  else c

/-- Lines 20–25: strip surrounding whitespace from every column name,
then apply the rename map. -/
def normalizedHeader (h : List String) : List String :=
  (h.map (fun c => c.trim)).map renameCol

/-- Lines 28–33: trim the reason value and collapse the known synonym
`"Follow Up"` to `"Follow-up"`. -/
def canonReason (s : String) : String :=
  if s.trim = "Follow Up" then "Follow-up" else s.trim

/-- The spec's name (§7) for the failure state of the load/normalize
phase.  In the script the underlying exceptions are the ones pandas
raises (`ValueError` from `parse_dates` on a missing `Timestamp`
column, `KeyError` on a missing renamed column, `AttributeError` from
`.dt` on an unparsed timestamp column); what is modelled is which
inputs fail and that no output is produced. -/
inductive MalformedInputError where
  | missingColumn : String → MalformedInputError
  | unparseableTimestamp : MalformedInputError
deriving Repr, DecidableEq

/-- Parse every element, failing if any single parse fails (the
behaviour of a pandas column conversion: all-or-nothing). -/
def traverseO {α β : Type} (f : α → Option β) : List α → Option (List β)
  | [] => some []
  | x :: xs =>
      match f x with
      | none => none
      | some y =>
          match traverseO f xs with
          | none => none
          | some ys => some (y :: ys)

/-- Lines 14–58 of the script, as one fallible load-and-normalize step
over an abstract timestamp parser `parse` (standing for
`pd.to_datetime`, which returns seconds since the epoch here and fails
on unparseable text).  The checks appear in the order the script first
touches each column: `Timestamp` at `read_csv(parse_dates=...)`
(line 15), `Reason for Calling` at line 28, `Agent Name` at line 36,
the parsed timestamps at `.dt.date` (line 37), and `New patient?` at
the aggregation of line 58.  Any failure aborts before any output
table exists. -/
def loadPipeline (parse : String → Option Int) (t : RawTable) :
    Except MalformedInputError (List Record) :=
  if "Timestamp" ∉ t.header then
    Except.error (MalformedInputError.missingColumn "Timestamp")
  else
    let h := normalizedHeader t.header
    if "Reason for Calling" ∉ h then
      Except.error (MalformedInputError.missingColumn "Reason for Calling")
    else if "Agent Name" ∉ h then
      Except.error (MalformedInputError.missingColumn "Agent Name")
    else
      match traverseO (fun row => (getCell t.header row "Timestamp").bind parse) t.rows with
      | none => Except.error MalformedInputError.unparseableTimestamp
      | some ts =>
          if "New patient?" ∉ h then
            Except.error (MalformedInputError.missingColumn "New patient?")
          else
            Except.ok ((t.rows.zip ts).map (fun p =>
              ⟨(getCell h p.1 "Agent Name").getD "",
               p.2,
               canonReason ((getCell h p.1 "Reason for Calling").getD ""),
               (getCell h p.1 "New patient?").getD ""⟩))

theorem traverseO_eq_none {α β : Type} (f : α → Option β) :
    ∀ (l : List α), (∃ x ∈ l, f x = none) → traverseO f l = none
  | [], h => by
      obtain ⟨x, hx, _⟩ := h
      exact absurd hx (List.not_mem_nil x)
  | x :: xs, h => by
      obtain ⟨y, hy, hfy⟩ := h
      rcases List.mem_cons.mp hy with rfl | hy'
      · rw [traverseO, hfy]
      · rw [traverseO]
        cases hfx : f x
        · rfl
        · rw [traverseO_eq_none f xs ⟨y, hy', hfy⟩]

theorem load_ok_shape (parse : String → Option Int) (t : RawTable)
    (out : List Record) (h : loadPipeline parse t = Except.ok out) :
    "Timestamp" ∈ t.header ∧
    "Agent Name" ∈ normalizedHeader t.header ∧
    "Reason for Calling" ∈ normalizedHeader t.header ∧
    "New patient?" ∈ normalizedHeader t.header ∧
    ∀ row ∈ t.rows, (getCell t.header row "Timestamp").bind parse ≠ none := by
  rw [loadPipeline] at h
  by_cases h1 : "Timestamp" ∉ t.header
  · rw [if_pos h1] at h
    exact absurd h (by simp)
  · rw [if_neg h1] at h
    by_cases h2 : "Reason for Calling" ∉ normalizedHeader t.header
    · rw [if_pos h2] at h
      exact absurd h (by simp)
    · rw [if_neg h2] at h
      by_cases h3 : "Agent Name" ∉ normalizedHeader t.header
      · rw [if_pos h3] at h
        exact absurd h (by simp)
      · rw [if_neg h3] at h
        cases hm : traverseO
            (fun row => (getCell t.header row "Timestamp").bind parse) t.rows with
        | none =>
            rw [hm] at h
            exact absurd h (by simp)
        | some ts =>
            rw [hm] at h
            dsimp only at h
            by_cases h4 : "New patient?" ∉ normalizedHeader t.header
            · rw [if_pos h4] at h
              exact absurd h (by simp)
            · refine ⟨not_not.mp h1, not_not.mp h3, not_not.mp h2,
                not_not.mp h4, ?_⟩
              intro row hrow hnone
              have := traverseO_eq_none
                (fun row => (getCell t.header row "Timestamp").bind parse)
                t.rows ⟨row, hrow, hnone⟩
              rw [this] at hm
              exact Option.noConfusion hm

/-- C5: if any required column (agent name, timestamp, reason,
new-patient flag) is absent after column renaming, or any row's
timestamp fails to parse, the load/normalize phase fails with a
`MalformedInputError` and produces no record set at all — the pipeline
never continues with partial data. -/
theorem load_malformed_fails (parse : String → Option Int) (t : RawTable)
    (h : "Timestamp" ∉ t.header ∨
         "Agent Name" ∉ normalizedHeader t.header ∨
         "Reason for Calling" ∉ normalizedHeader t.header ∨
         "New patient?" ∉ normalizedHeader t.header ∨
         (∃ row ∈ t.rows, (getCell t.header row "Timestamp").bind parse = none)) :
    ∃ e, loadPipeline parse t = Except.error e ∧
      ∀ out, loadPipeline parse t ≠ Except.ok out := by
  cases hp : loadPipeline parse t with
  | error e =>
      exact ⟨e, rfl, fun out hout => Except.noConfusion hout⟩
  | ok out =>
      exfalso
      obtain ⟨s1, s2, s3, s4, s5⟩ := load_ok_shape parse t out hp
      rcases h with h | h | h | h | ⟨row, hrow, hnone⟩
      · exact h s1
      · exact h s2
      · exact h s3
      · exact h s4
      · exact s5 row hrow hnone

/-- Witness instantiating `load_malformed_fails` on a table with no
`Timestamp` column at all. -/
theorem load_malformed_fails_witness :
    ∃ e, loadPipeline (fun _ => some 0) ⟨["Agent"], [["x"]]⟩ = Except.error e ∧
      ∀ out, loadPipeline (fun _ => some 0) ⟨["Agent"], [["x"]]⟩ ≠
        Except.ok out :=
  load_malformed_fails (fun _ => some 0) ⟨["Agent"], [["x"]]⟩
    (Or.inl (by decide))
